import Mathlib

/-!
Verification development for the `mine.rs` mining client.

The definitions below are a shallow embedding of `src/mine.rs`:

* machine integers are modelled as `Nat`/`Int` with explicit saturation or
  `% 2^64` where the Rust code uses `u64`/`i64` arithmetic;
* `f64` wallet/stake balances are modelled as exact rationals `ℚ`
  (the accounting logic only subtracts, compares and clamps);
* fallible external calls (the RPC balance query, the per-nonce hash) are
  modelled as `Option`-valued inputs;
* real time is modelled by a monotone function from loop-iteration index to
  elapsed whole seconds, matching `timer.elapsed().as_secs()`.
-/

/-- Modulus of `u64` arithmetic, `2^64` written as a numeral. -/
def U64MOD : Nat := 18446744073709551616

/-- Largest `u64` value, `u64::MAX = 2^64 - 1` written as a numeral. -/
def U64MAX : Nat := 18446744073709551615

/-- Smallest `i64` value, `i64::MIN = -2^63`. -/
def I64MIN : Int := -9223372036854775808

/-- Largest `i64` value, `i64::MAX = 2^63 - 1`. -/
def I64MAX : Int := 9223372036854775807

/-- Rust `i64::saturating_add`: exact sum clamped into the `i64` range. -/
def satAddI64 (a b : Int) : Int := max I64MIN (min I64MAX (a + b))

/-- Rust `i64::saturating_sub`: exact difference clamped into the `i64` range. -/
def satSubI64 (a b : Int) : Int := max I64MIN (min I64MAX (a - b))

/-- Rust `u64::saturating_div`.  On unsigned integers saturating division is
plain truncating division (the Rust call panics when the divisor is `0`;
every use in `mine.rs` has `threads ≥ 1`). -/
def satDivU64 (a b : Nat) : Nat := a / b

/-- Rust `u64::saturating_mul`: exact product clamped to `u64::MAX`. -/
def satMulU64 (a b : Nat) : Nat := min (a * b) U64MAX

/-- Rust `buffer_time as i64` for `buffer_time : u64`: reinterpret the low 64
bits as a two's-complement signed value. -/
def u64AsI64 (n : Nat) : Int :=
  let m : Nat := n % U64MOD
  if m < 9223372036854775808 then (m : Int)
  else (m : Int) - 18446744073709551616

/-- Shallow embedding of `Miner::get_cutoff` (src/mine.rs lines 320-331).
`last_hash_at` is `proof.last_hash_at : i64`, `now` is
`clock.unix_timestamp : i64`, and `buffer_time` is the `u64` argument.
The Rust body is
`proof.last_hash_at.saturating_add(60).saturating_sub(buffer_time as i64)
  .saturating_sub(clock.unix_timestamp).max(0) as u64`,
followed by the fallback
`retval = (60 as i64).saturating_sub(buffer_time as i64).max(0) as u64`
when the first value is `0`. -/
def get_cutoff (last_hash_at : Int) (now : Int) (buffer_time : Nat) : Nat :=
  let retval :=
    (max 0 (satSubI64 (satSubI64 (satAddI64 last_hash_at 60) (u64AsI64 buffer_time)) now)).toNat
  if retval = 0 then (max 0 (satSubI64 60 (u64AsI64 buffer_time))).toNat
  else retval

/-- Value of `sol_to_lamports(0.005)` from `solana_program::native_token`,
i.e. `0.005 * 1_000_000_000` lamports.  (The `f64` product rounds to exactly
`5000000.0`, so the `as u64` cast yields `5000000`.) -/
def MIN_SOL_LAMPORTS : Nat := 5000000

/-- Shallow embedding of `solana_program::native_token::lamports_to_sol`:
lamports divided by one billion, as an exact rational. -/
def lamports_to_sol (lamports : Nat) : ℚ := (lamports : ℚ) / 1000000000

/-- Shallow embedding of `Miner::get_sol_balance` (src/mine.rs lines 333-362).
The RPC call `client.get_balance(..)` is modelled by its outcome
`queryResult : Option Nat` (`none` = query failed).  The function's result is
`none` exactly when the Rust code panics and `some balance` when it returns. -/
def get_sol_balance (panicFlag : Bool) (queryResult : Option Nat) : Option ℚ :=
  match queryResult with
  | some lamports_balance =>
    let sol_balance := lamports_to_sol lamports_balance
    if lamports_balance ≤ MIN_SOL_LAMPORTS then
      if panicFlag then none else some sol_balance
    else some sol_balance
  | none => if panicFlag then none else some 0

/-- Starting nonce of worker `i` out of `threads` workers (src/mine.rs line 218):
`u64::MAX.saturating_div(threads).saturating_mul(i)`. -/
def startNonce (threads i : Nat) : Nat := satMulU64 (satDivU64 U64MAX threads) i

/-- Lower bound of worker `i`'s nonce block. -/
def blockStart (threads i : Nat) : Nat := startNonce threads i

/-- Upper bound (exclusive) of worker `i`'s nonce block: the next worker's
starting nonce, or `u64::MAX` for the last worker. -/
def blockEnd (threads i : Nat) : Nat :=
  if i + 1 < threads then startNonce threads (i + 1) else U64MAX

/-- Local state of one search worker inside `find_hash_par`
(src/mine.rs lines 218-222): the scan nonce, the best triple found so far,
and the last elapsed-seconds value written to the progress indicator. -/
structure WorkerState where
  nonce : Nat
  best_nonce : Nat
  best_difficulty : Nat
  best_hash : Nat
  last_elapsed : Nat
deriving DecidableEq

/-- Initial state of worker `i` (src/mine.rs lines 218-222): the nonce and
best nonce start at `startNonce`, best difficulty `0`, default hash,
`last_elapsed = 0`.  The digest is modelled by the opaque code `0`. -/
def workerInit (threads i : Nat) : WorkerState :=
  { nonce := startNonce threads i
    best_nonce := startNonce threads i
    best_difficulty := 0
    best_hash := 0
    last_elapsed := 0 }

/-- One hash attempt (src/mine.rs lines 225-236).  `hashFn nonce` models
`drillx::hash_with_memory` at that nonce: `none` is a hash error (`Err`),
`some (d, h)` a digest with difficulty `d` and digest code `h`.  The best
triple is replaced only on strictly greater difficulty
(`difficulty.gt(&best_difficulty)`). -/
def hashUpd (hashFn : Nat → Option (Nat × Nat)) (s : WorkerState) : WorkerState :=
  match hashFn s.nonce with
  | some dh =>
    if s.best_difficulty < dh.1 then
      { s with best_nonce := s.nonce, best_difficulty := dh.1, best_hash := dh.2 }
    else s
  | none => s

/-- Rust `nonce += 1` on a `u64` (src/mine.rs line 261), wrapping at `2^64`. -/
def incNonce (s : WorkerState) : WorkerState := { s with nonce := (s.nonce + 1) % U64MOD }

/-- Progress-indicator bookkeeping of the designated worker
(src/mine.rs lines 246-256): record the new elapsed-seconds value when it
changed (the message write itself is console output). -/
def updProgress (e : Nat) (s : WorkerState) : WorkerState :=
  if e ≠ s.last_elapsed then { s with last_elapsed := e } else s

/-- Outcome of one iteration of the worker loop: either continue with a new
state, or break out of the loop returning the best triple. -/
inductive StepResult where
  | next (s : WorkerState) : StepResult
  | done (r : Nat × Nat × Nat) : StepResult
deriving DecidableEq

/-- One iteration of the worker loop body (src/mine.rs lines 223-262) for
worker index `i`: hash the current nonce, then only when the nonce is
divisible by 100 consult the timer — if `elapsed ≥ cutoff_time` and the local
best difficulty strictly exceeds `ore::MIN_DIFFICULTY` the loop breaks,
otherwise worker 0 refreshes the progress indicator; finally the nonce is
incremented.  `e` is `timer.elapsed().as_secs()` at this iteration. -/
def workerStep (hashFn : Nat → Option (Nat × Nat)) (cutoff_time min_difficulty i : Nat)
    (e : Nat) (s : WorkerState) : StepResult :=
  let s1 := hashUpd hashFn s
  if s.nonce % 100 = 0 then
    if cutoff_time ≤ e then
      if min_difficulty < s1.best_difficulty then
        StepResult.done (s1.best_nonce, s1.best_difficulty, s1.best_hash)
      else StepResult.next (incNonce s1)
    else if i = 0 then StepResult.next (incNonce (updProgress e s1))
    else StepResult.next (incNonce s1)
  else StepResult.next (incNonce s1)

/-- Fuel-bounded run of the worker loop.  `elapsed k` is the timer reading at
global iteration `k`; the run returns `some (best_nonce, best_difficulty,
best_hash)` when the loop breaks within `fuel` iterations and `none`
otherwise (the Rust loop has no other exit). -/
def workerRun (hashFn : Nat → Option (Nat × Nat)) (cutoff_time min_difficulty i : Nat)
    (elapsed : Nat → Nat) : Nat → Nat → WorkerState → Option (Nat × Nat × Nat)
  | 0, _, _ => none
  | fuel + 1, k, s =>
    match workerStep hashFn cutoff_time min_difficulty i (elapsed k) s with
    | StepResult.done r => some r
    | StepResult.next s1 => workerRun hashFn cutoff_time min_difficulty i elapsed fuel (k + 1) s1

/-- One step of the join-aggregation loop of `find_hash_par`
(src/mine.rs lines 275-283): a joined worker result replaces the current best
only on strictly greater difficulty (`difficulty > best_difficulty`). -/
def joinStep (b r : Nat × Nat × Nat) : Nat × Nat × Nat :=
  if b.2.1 < r.2.1 then r else b

/-- Aggregation over the joined worker results, in spawn order, starting from
`best_nonce = 0`, `best_difficulty = 0`, `best_hash = Hash::default()`
(src/mine.rs lines 272-283).  Each list element is a worker's returned
`(best_nonce, best_difficulty, best_hash)` triple. -/
def joinResults (rs : List (Nat × Nat × Nat)) : Nat × Nat × Nat :=
  rs.foldl joinStep (0, 0, 0)

/-- Wallet-balance floor `MIN_SOL_BALANCE: f64 = 0.005` (src/mine.rs line 33),
as an exact rational. -/
def MIN_SOL_BALANCE : ℚ := 1 / 200

/-- Observable steps of one pass of the `mine` control loop, in the order the
code performs them.  `fetchState p` covers the external reads at the top of
pass `p`'s body (proof, cutoff, wallet balance, clock; lines 62-72);
`summarize p` is the previous-pass accounting block (lines 91-118);
`evalBalance p` is the balance comparison (line 161); `waitTick p ms` is one
iteration of the fund-wait loop sleeping `ms` milliseconds (lines 164-171);
`searchAndSubmit p` is the search-and-submit branch (lines 178-195). -/
inductive MineEvent where
  | fetchState (p : Nat) : MineEvent
  | summarize (p : Nat) : MineEvent
  | evalBalance (p : Nat) : MineEvent
  | waitTick (p : Nat) (ms : Nat) : MineEvent
  | searchAndSubmit (p : Nat) : MineEvent
deriving DecidableEq, BEq

/-- Event is a `summarize`. -/
def isSummarizeEv : MineEvent → Bool
  | MineEvent.summarize _ => true
  | _ => false

/-- Event is a `waitTick`. -/
def isWaitTickEv : MineEvent → Bool
  | MineEvent.waitTick _ _ => true
  | _ => false

/-- Event is a `fetchState`. -/
def isFetchStateEv : MineEvent → Bool
  | MineEvent.fetchState _ => true
  | _ => false

/-- Cross-pass mutable state of the `mine` loop (src/mine.rs lines 44-55):
the pass counter and the `last_*` / `session_*` `f64` variables, modelled
as exact rationals. -/
structure PassState where
  pass : Nat
  last_sol_balance : ℚ
  last_staked_balance : ℚ
  session_ore_mined : ℚ
  session_sol_used : ℚ

/-- State before the first pass (src/mine.rs lines 44-55): `pass = 1` and all
balances and session totals `0.0`. -/
def initPassState : PassState :=
  { pass := 1
    last_sol_balance := 0
    last_staked_balance := 0
    session_ore_mined := 0
    session_sol_used := 0 }

/-- One iteration of the `mine` loop body (src/mine.rs lines 58-203).
`env p = (current_sol_balance, current_staked_balance)` models the external
balances read during pass `p` (the RPC wallet query on line 68 and
`amount_u64_to_f64(proof.balance)` on line 69).  Mirrors the code's order:
fetch; on passes after the first, the summarize block with its clamped
deltas (`last_pass_ore_mined < 0.0` is reset to `0.0`, a positive
`last_pass_sol_used` is reset to `-0.0`, modelled as `0`, and the tally is
`session_sol_used -= last_pass_sol_used`); store the balances as `last_*`;
then the balance check chooses the 60-tick fund wait or search-and-submit;
finally `pass += 1`. -/
def mineBody (env : Nat → ℚ × ℚ) (s : PassState) : PassState × List MineEvent :=
  let current_sol_balance := (env s.pass).1
  let current_staked_balance := (env s.pass).2
  let su :=
    if 1 < s.pass then
      let lpom := current_staked_balance - s.last_staked_balance
      let last_pass_ore_mined := if lpom < 0 then 0 else lpom
      let lpsu := current_sol_balance - s.last_sol_balance
      let last_pass_sol_used := if 0 < lpsu then 0 else lpsu
      ({ s with
          session_ore_mined := s.session_ore_mined + last_pass_ore_mined
          session_sol_used := s.session_sol_used - last_pass_sol_used },
        [MineEvent.summarize s.pass])
    else (s, [])
  let s2 := { su.1 with
      last_sol_balance := current_sol_balance
      last_staked_balance := current_staked_balance }
  let branch :=
    if current_sol_balance < MIN_SOL_BALANCE then
      List.replicate 60 (MineEvent.waitTick s.pass 1000)
    else [MineEvent.searchAndSubmit s.pass]
  ({ s2 with pass := s.pass + 1 },
    [MineEvent.fetchState s.pass] ++ su.2 ++ [MineEvent.evalBalance s.pass] ++ branch)

/-- Run `n` passes of the `mine` loop from the initial state, collecting the
event trace in order. -/
def mineRun (env : Nat → ℚ × ℚ) : Nat → PassState × List MineEvent
  | 0 => (initPassState, [])
  | n + 1 =>
    let p := mineRun env n
    let b := mineBody env p.1
    (b.1, p.2 ++ b.2)

theorem satAddI64_eq {a b : Int} (h1 : I64MIN ≤ a + b) (h2 : a + b ≤ I64MAX) :
    satAddI64 a b = a + b := by
  rw [satAddI64, min_eq_right h2, max_eq_right h1]

theorem satSubI64_eq {a b : Int} (h1 : I64MIN ≤ a - b) (h2 : a - b ≤ I64MAX) :
    satSubI64 a b = a - b := by
  rw [satSubI64, min_eq_right h2, max_eq_right h1]

theorem u64AsI64_eq {n : Nat} (h : n < 9223372036854775808) : u64AsI64 n = (n : Int) := by
  have hmod : n % U64MOD = n := Nat.mod_eq_of_lt (by simp only [U64MOD]; omega)
  simp only [u64AsI64, hmod, if_pos h]

/-- C3: for every proof snapshot, clock value and `buffer_time` (within the
timestamp ranges where the `i64` saturating arithmetic is exact),
`get_cutoff` returns `max(0, last_hash_at + 60 - buffer_time - now)`, except
that when that expression is `≤ 0` it returns the fallback
`max(0, 60 - buffer_time)`; the returned cutoff is never negative. -/
theorem get_cutoff_spec (last_hash_at now : Int) (buffer_time : Nat)
    (hl1 : -(2 ^ 61) ≤ last_hash_at) (hl2 : last_hash_at ≤ 2 ^ 61)
    (hn1 : -(2 ^ 61) ≤ now) (hn2 : now ≤ 2 ^ 61) (hb : buffer_time ≤ 2 ^ 61) :
    (0 < last_hash_at + 60 - buffer_time - now →
      (get_cutoff last_hash_at now buffer_time : Int) = last_hash_at + 60 - buffer_time - now)
    ∧ (last_hash_at + 60 - buffer_time - now ≤ 0 →
      (get_cutoff last_hash_at now buffer_time : Int) = max 0 (60 - (buffer_time : Int)))
    ∧ 0 ≤ (get_cutoff last_hash_at now buffer_time : Int) := by
  have hp : (2 : Int) ^ 61 = 2305843009213693952 := by norm_num
  have hbn : buffer_time ≤ 2305843009213693952 :=
    le_trans hb (by norm_num)
  rw [hp] at hl1 hl2 hn1 hn2
  have hu : u64AsI64 buffer_time = (buffer_time : Int) :=
    u64AsI64_eq (lt_of_le_of_lt hbn (by norm_num))
  have e1 : satAddI64 last_hash_at 60 = last_hash_at + 60 := by
    apply satAddI64_eq <;> simp only [I64MIN, I64MAX] <;> omega
  have e2 : satSubI64 (last_hash_at + 60) (u64AsI64 buffer_time)
      = last_hash_at + 60 - buffer_time := by
    rw [hu]; apply satSubI64_eq <;> simp only [I64MIN, I64MAX] <;> omega
  have e3 : satSubI64 (last_hash_at + 60 - buffer_time) now
      = last_hash_at + 60 - buffer_time - now := by
    apply satSubI64_eq <;> simp only [I64MIN, I64MAX] <;> omega
  have e4 : satSubI64 60 (u64AsI64 buffer_time) = 60 - (buffer_time : Int) := by
    rw [hu]; apply satSubI64_eq <;> simp only [I64MIN, I64MAX] <;> omega
  refine ⟨?_, ?_, ?_⟩
  · intro hpos
    have hm : max 0 (last_hash_at + 60 - buffer_time - now)
        = last_hash_at + 60 - buffer_time - now := max_eq_right hpos.le
    have hne : (last_hash_at + 60 - buffer_time - now).toNat ≠ 0 := by omega
    simp only [get_cutoff, e1, e2, e3, hm, if_neg hne]
    exact Int.toNat_of_nonneg hpos.le
  · intro hnp
    have hmax : max 0 (last_hash_at + 60 - buffer_time - now) = 0 := max_eq_left hnp
    simp only [get_cutoff, e1, e2, e3, hmax, Int.toNat_zero, if_pos, e4]
    rw [Int.toNat_eq_max, max_comm]
    exact max_eq_right (le_max_left 0 _)
  · exact Int.natCast_nonneg _

theorem get_cutoff_spec_witness :
    get_cutoff 100 50 30 = 80 ∧ get_cutoff 0 1000 30 = 30 := by
  have h1 := (get_cutoff_spec 100 50 30 (by norm_num) (by norm_num) (by norm_num)
    (by norm_num) (by norm_num)).1 (by norm_num)
  have h2 := (get_cutoff_spec 0 1000 30 (by norm_num) (by norm_num) (by norm_num)
    (by norm_num) (by norm_num)).2.1 (by norm_num)
  norm_num at h1 h2
  exact ⟨by exact_mod_cast h1, by exact_mod_cast h2⟩

/-- C10: `get_sol_balance` called with `panic = true` aborts (returns `none`)
exactly when the balance query fails or when it succeeds with at most
`sol_to_lamports(0.005)` lamports; called with `panic = false` it never
aborts, returning the queried balance on success (even when low) and `0.0`
on query failure. -/
theorem get_sol_balance_spec :
    (∀ queryResult, get_sol_balance true queryResult = none ↔
      (queryResult = none ∨ ∃ l, queryResult = some l ∧ l ≤ MIN_SOL_LAMPORTS))
    ∧ (∀ l, MIN_SOL_LAMPORTS < l →
        get_sol_balance true (some l) = some (lamports_to_sol l))
    ∧ (∀ queryResult, get_sol_balance false queryResult ≠ none)
    ∧ (∀ l, get_sol_balance false (some l) = some (lamports_to_sol l))
    ∧ get_sol_balance false none = some 0 := by
  refine ⟨?_, ?_, ?_, ?_, rfl⟩
  · intro q
    match q with
    | none => simp [get_sol_balance]
    | some l =>
      by_cases h : l ≤ MIN_SOL_LAMPORTS
      · simp [get_sol_balance, h]
      · simp [get_sol_balance, h]
  · intro l h
    rw [get_sol_balance]
    simp only [if_neg (not_le.mpr h)]
  · intro q
    match q with
    | none => simp [get_sol_balance]
    | some l =>
      by_cases h : l ≤ MIN_SOL_LAMPORTS <;> simp [get_sol_balance, h]
  · intro l
    by_cases h : l ≤ MIN_SOL_LAMPORTS <;> simp [get_sol_balance, h]

theorem get_sol_balance_spec_witness :
    get_sol_balance true (some 1000) = none
    ∧ get_sol_balance true none = none
    ∧ get_sol_balance true (some 6000000) = some (lamports_to_sol 6000000)
    ∧ get_sol_balance false (some 1000) = some (lamports_to_sol 1000)
    ∧ get_sol_balance false none = some 0 := by
  have h := get_sol_balance_spec
  refine ⟨?_, ?_, ?_, h.2.2.2.1 1000, h.2.2.2.2⟩
  · exact (h.1 (some 1000)).mpr (Or.inr ⟨1000, rfl, by norm_num [MIN_SOL_LAMPORTS]⟩)
  · exact (h.1 none).mpr (Or.inl rfl)
  · exact h.2.1 6000000 (by norm_num [MIN_SOL_LAMPORTS])

theorem startNonce_eq (T : Nat) :
    ∀ i, i ≤ T → startNonce T i = U64MAX / T * i := by
  intro i hi
  have hq : U64MAX / T * i ≤ U64MAX :=
    le_trans (Nat.mul_le_mul_left _ hi) (Nat.div_mul_le_self U64MAX T)
  simp only [startNonce, satMulU64, satDivU64]
  exact min_eq_left hq

/-- C6: for every worker count `T ≥ 1` (any `u64` value) and every worker
index `i < T`, worker `i`'s scan starts at nonce `i * (u64::MAX / T)`, and
the induced blocks are contiguous and partition `[0, u64::MAX)`: consecutive
blocks share their boundary and every nonce below `u64::MAX` lies in exactly
one block. -/
theorem find_hash_par_partition (T : Nat) (hT : 1 ≤ T) (hT64 : T ≤ U64MAX) :
    (∀ i, i < T → startNonce T i = U64MAX / T * i)
    ∧ (∀ i, i + 1 < T → blockEnd T i = blockStart T (i + 1))
    ∧ (∀ n, n < U64MAX → ∃ i, (i < T ∧ blockStart T i ≤ n ∧ n < blockEnd T i) ∧
        ∀ j, j < T → blockStart T j ≤ n → n < blockEnd T j → j = i) := by
  have hstart := startNonce_eq T
  have hTpos : 0 < T := hT
  have hqpos : 1 ≤ U64MAX / T := (Nat.one_le_div_iff hTpos).mpr hT64
  refine ⟨fun i hi => hstart i hi.le, fun i hi => by
    simp only [blockEnd, if_pos hi, blockStart], ?_⟩
  intro n hn
  have hdm : U64MAX / T * (n / (U64MAX / T)) + n % (U64MAX / T) = n :=
    Nat.div_add_mod n (U64MAX / T)
  have hmlt : n % (U64MAX / T) < U64MAX / T := Nat.mod_lt n (by omega)
  refine ⟨min (n / (U64MAX / T)) (T - 1), ⟨?_, ?_, ?_⟩, ?_⟩
  · exact lt_of_le_of_lt (min_le_right _ _) (by omega)
  · rw [blockStart, hstart _ (by omega)]
    rcases min_cases (n / (U64MAX / T)) (T - 1) with ⟨hmin, _⟩ | ⟨hmin, hlt⟩
    · rw [hmin]; omega
    · rw [hmin]
      calc U64MAX / T * (T - 1) ≤ U64MAX / T * (n / (U64MAX / T)) :=
            Nat.mul_le_mul_left _ (by omega)
      _ ≤ n := by omega
  · rw [blockEnd]
    by_cases hlast : min (n / (U64MAX / T)) (T - 1) + 1 < T
    · rw [if_pos hlast, hstart _ (by omega)]
      have hmin : min (n / (U64MAX / T)) (T - 1) = n / (U64MAX / T) := by
        rcases min_cases (n / (U64MAX / T)) (T - 1) with ⟨hmin, _⟩ | ⟨hmin, _⟩
        · exact hmin
        · rw [hmin] at hlast ⊢; omega
      rw [hmin, Nat.mul_succ]
      omega
    · rw [if_neg hlast]; exact hn
  · intro j hj hjs hje
    rcases lt_trichotomy j (min (n / (U64MAX / T)) (T - 1)) with hlt | heq | hgt
    · exfalso
      rw [blockEnd, if_pos (by omega), hstart _ (by omega)] at hje
      rw [blockStart, hstart _ (by omega)] at hjs
      have hstep : U64MAX / T * (j + 1) ≤ U64MAX / T * min (n / (U64MAX / T)) (T - 1) :=
        Nat.mul_le_mul_left _ (by omega)
      have hin : U64MAX / T * min (n / (U64MAX / T)) (T - 1) ≤ n := by
        rcases min_cases (n / (U64MAX / T)) (T - 1) with ⟨hmin, _⟩ | ⟨hmin, hlt2⟩
        · rw [hmin]; omega
        · rw [hmin]
          calc U64MAX / T * (T - 1) ≤ U64MAX / T * (n / (U64MAX / T)) :=
                Nat.mul_le_mul_left _ (by omega)
          _ ≤ n := by omega
      omega
    · exact heq
    · exfalso
      have hi1 : min (n / (U64MAX / T)) (T - 1) + 1 < T := by omega
      have hend : n < U64MAX / T * (min (n / (U64MAX / T)) (T - 1) + 1) := by
        have hmin : min (n / (U64MAX / T)) (T - 1) = n / (U64MAX / T) := by
          rcases min_cases (n / (U64MAX / T)) (T - 1) with ⟨hmin, _⟩ | ⟨hmin, _⟩
          · exact hmin
          · rw [hmin] at hi1 ⊢; omega
        rw [hmin, Nat.mul_succ]
        omega
      rw [blockStart, hstart _ hj.le] at hjs
      have hstep : U64MAX / T * (min (n / (U64MAX / T)) (T - 1) + 1) ≤ U64MAX / T * j :=
        Nat.mul_le_mul_left _ (by omega)
      omega

theorem find_hash_par_partition_witness :
    (∀ i, i < 4 → startNonce 4 i = U64MAX / 4 * i)
    ∧ (∀ i, i + 1 < 4 → blockEnd 4 i = blockStart 4 (i + 1))
    ∧ (∀ n, n < U64MAX → ∃ i, (i < 4 ∧ blockStart 4 i ≤ n ∧ n < blockEnd 4 i) ∧
        ∀ j, j < 4 → blockStart 4 j ≤ n → n < blockEnd 4 j → j = i) :=
  find_hash_par_partition 4 (by norm_num) (by simp only [U64MAX]; omega)

theorem hashUpd_nonce (hashFn : Nat → Option (Nat × Nat)) (s : WorkerState) :
    (hashUpd hashFn s).nonce = s.nonce := by
  cases h : hashFn s.nonce <;> simp only [hashUpd, h]
  split <;> rfl

theorem hashUpd_best_mono (hashFn : Nat → Option (Nat × Nat)) (s : WorkerState) :
    s.best_difficulty ≤ (hashUpd hashFn s).best_difficulty := by
  cases h : hashFn s.nonce with
  | none => simp only [hashUpd, h]; exact le_refl _
  | some dh =>
    by_cases hlt : s.best_difficulty < dh.1
    · have he : (hashUpd hashFn s).best_difficulty = dh.1 := by
        simp [hashUpd, h, hlt]
      rw [he]; exact le_of_lt hlt
    · have he : hashUpd hashFn s = s := by simp [hashUpd, h, hlt]
      rw [he]

theorem hashUpd_best_eq (hashFn : Nat → Option (Nat × Nat)) (s : WorkerState)
    (h : (hashUpd hashFn s).best_difficulty = s.best_difficulty) :
    (hashUpd hashFn s).best_nonce = s.best_nonce ∧ (hashUpd hashFn s).best_hash = s.best_hash := by
  cases hh : hashFn s.nonce with
  | none =>
    have he : hashUpd hashFn s = s := by simp [hashUpd, hh]
    rw [he]; exact ⟨rfl, rfl⟩
  | some dh =>
    by_cases hlt : s.best_difficulty < dh.1
    · exfalso
      have he : (hashUpd hashFn s).best_difficulty = dh.1 := by
        simp [hashUpd, hh, hlt]
      omega
    · have he : hashUpd hashFn s = s := by simp [hashUpd, hh, hlt]
      rw [he]; exact ⟨rfl, rfl⟩

theorem updProgress_fields (e : Nat) (s : WorkerState) :
    (updProgress e s).nonce = s.nonce ∧ (updProgress e s).best_nonce = s.best_nonce
    ∧ (updProgress e s).best_difficulty = s.best_difficulty
    ∧ (updProgress e s).best_hash = s.best_hash := by
  rw [updProgress]
  split <;> exact ⟨rfl, rfl, rfl, rfl⟩

theorem incNonce_fields (s : WorkerState) :
    (incNonce s).nonce = (s.nonce + 1) % U64MOD ∧ (incNonce s).best_nonce = s.best_nonce
    ∧ (incNonce s).best_difficulty = s.best_difficulty
    ∧ (incNonce s).best_hash = s.best_hash :=
  ⟨rfl, rfl, rfl, rfl⟩

theorem workerStep_next_of_not100 (hashFn : Nat → Option (Nat × Nat))
    (c m i e : Nat) (s : WorkerState) (h : s.nonce % 100 ≠ 0) :
    workerStep hashFn c m i e s = StepResult.next (incNonce (hashUpd hashFn s)) := by
  simp only [workerStep, if_neg h]

theorem workerStep_done_of (hashFn : Nat → Option (Nat × Nat))
    (c m i e : Nat) (s : WorkerState) (h0 : s.nonce % 100 = 0) (h1 : c ≤ e)
    (h2 : m < (hashUpd hashFn s).best_difficulty) :
    workerStep hashFn c m i e s
      = StepResult.done ((hashUpd hashFn s).best_nonce, (hashUpd hashFn s).best_difficulty,
          (hashUpd hashFn s).best_hash) := by
  simp only [workerStep, if_pos h0, if_pos h1, if_pos h2]

theorem workerStep_done_inv (hashFn : Nat → Option (Nat × Nat))
    (c m i e : Nat) (s : WorkerState) (r : Nat × Nat × Nat)
    (h : workerStep hashFn c m i e s = StepResult.done r) :
    s.nonce % 100 = 0 ∧ c ≤ e ∧ m < (hashUpd hashFn s).best_difficulty
    ∧ r = ((hashUpd hashFn s).best_nonce, (hashUpd hashFn s).best_difficulty,
        (hashUpd hashFn s).best_hash) := by
  by_cases h0 : s.nonce % 100 = 0
  · by_cases h1 : c ≤ e
    · by_cases h2 : m < (hashUpd hashFn s).best_difficulty
      · rw [workerStep_done_of hashFn c m i e s h0 h1 h2] at h
        injection h with h
        exact ⟨h0, h1, h2, h.symm⟩
      · simp only [workerStep, if_pos h0, if_pos h1, if_neg h2] at h
        exact StepResult.noConfusion h
    · by_cases hi : i = 0
      · simp only [workerStep, if_pos h0, if_neg h1, if_pos hi] at h
        exact StepResult.noConfusion h
      · simp only [workerStep, if_pos h0, if_neg h1, if_neg hi] at h
        exact StepResult.noConfusion h
  · rw [workerStep_next_of_not100 hashFn c m i e s h0] at h
    exact StepResult.noConfusion h

theorem workerStep_next_of_cond (hashFn : Nat → Option (Nat × Nat))
    (c m i e : Nat) (s : WorkerState)
    (h : ¬ (c ≤ e ∧ m < (hashUpd hashFn s).best_difficulty)) :
    ∃ u, workerStep hashFn c m i e s = StepResult.next u := by
  by_cases h0 : s.nonce % 100 = 0
  · by_cases h1 : c ≤ e
    · have h2 : ¬ m < (hashUpd hashFn s).best_difficulty := fun h2 => h ⟨h1, h2⟩
      exact ⟨incNonce (hashUpd hashFn s),
        by simp only [workerStep, if_pos h0, if_pos h1, if_neg h2]⟩
    · by_cases hi : i = 0
      · exact ⟨incNonce (updProgress e (hashUpd hashFn s)),
          by simp only [workerStep, if_pos h0, if_neg h1, if_pos hi]⟩
      · exact ⟨incNonce (hashUpd hashFn s),
          by simp only [workerStep, if_pos h0, if_neg h1, if_neg hi]⟩
  · exact ⟨incNonce (hashUpd hashFn s), workerStep_next_of_not100 hashFn c m i e s h0⟩

theorem exists_checkpoint (n : Nat) (hn : n < U64MOD) :
    ∃ j, j < 100 ∧ (n + j) % U64MOD % 100 = 0 ∧ ∀ m, m < j → (n + m) % U64MOD % 100 ≠ 0 := by
  simp only [U64MOD] at hn ⊢
  by_cases h0 : n % 100 = 0
  · refine ⟨0, by norm_num, ?_, by omega⟩
    have h1 : (n + 0) % 18446744073709551616 = n := by omega
    omega
  · by_cases hlt : n + (100 - n % 100) < 18446744073709551616
    · refine ⟨100 - n % 100, by omega, ?_, ?_⟩
      · have h1 : (n + (100 - n % 100)) % 18446744073709551616 = n + (100 - n % 100) := by omega
        omega
      · intro m hm
        have h1 : (n + m) % 18446744073709551616 = n + m := by omega
        omega
    · refine ⟨18446744073709551616 - n, by omega, ?_, ?_⟩
      · have h1 : (n + (18446744073709551616 - n)) % 18446744073709551616 = 0 := by omega
        omega
      · intro m hm
        have h1 : (n + m) % 18446744073709551616 = n + m := by omega
        omega

theorem workerRun_exits (hashFn : Nat → Option (Nat × Nat)) (c m i : Nat)
    (elapsed : Nat → Nat) (hmono : Monotone elapsed) :
    ∀ j k (s : WorkerState), s.nonce < U64MOD → c ≤ elapsed k → m < s.best_difficulty →
      (∀ t, t < j → (s.nonce + t) % U64MOD % 100 ≠ 0) →
      (s.nonce + j) % U64MOD % 100 = 0 →
      ∃ r, workerRun hashFn c m i elapsed (j + 1) k s = some r := by
  intro j
  induction j with
  | zero =>
    intro k s hn he hb _ hcp
    have h0 : s.nonce % 100 = 0 := by
      rw [Nat.add_zero, Nat.mod_eq_of_lt hn] at hcp
      exact hcp
    have hb1 : m < (hashUpd hashFn s).best_difficulty :=
      lt_of_lt_of_le hb (hashUpd_best_mono hashFn s)
    refine ⟨((hashUpd hashFn s).best_nonce, (hashUpd hashFn s).best_difficulty,
      (hashUpd hashFn s).best_hash), ?_⟩
    simp only [workerRun]
    rw [workerStep_done_of hashFn c m i (elapsed k) s h0 he hb1]
  | succ j ih =>
    intro k s hn he hb hpre hcp
    have h0 : s.nonce % 100 ≠ 0 := by
      have h1 := hpre 0 (by omega)
      rw [Nat.add_zero, Nat.mod_eq_of_lt hn] at h1
      exact h1
    have hstep := workerStep_next_of_not100 hashFn c m i (elapsed k) s h0
    have htn : (incNonce (hashUpd hashFn s)).nonce = (s.nonce + 1) % U64MOD := by
      rw [(incNonce_fields _).1, hashUpd_nonce]
    have htb : m < (incNonce (hashUpd hashFn s)).best_difficulty := by
      rw [(incNonce_fields _).2.2.1]
      exact lt_of_lt_of_le hb (hashUpd_best_mono hashFn s)
    have harg : ∀ u, ((incNonce (hashUpd hashFn s)).nonce + u) % U64MOD
        = (s.nonce + (u + 1)) % U64MOD := by
      intro u
      rw [htn, Nat.mod_add_mod]
      congr 1
      omega
    obtain ⟨r, hr⟩ := ih (k + 1) (incNonce (hashUpd hashFn s))
      (by rw [htn]; exact Nat.mod_lt _ (by simp only [U64MOD]; omega))
      (le_trans he (hmono (Nat.le_succ k)))
      htb
      (fun u hu => by rw [harg u]; exact hpre (u + 1) (by omega))
      (by rw [harg j]; exact hcp)
    refine ⟨r, ?_⟩
    simp only [workerRun]
    rw [hstep]
    exact hr

/-- C2: a worker's deadline check happens only at nonces divisible by 100
(at any other nonce the step always continues), and the loop breaks exactly
when, at such a check-point, elapsed time is at least `cutoff_time` and the
local best difficulty strictly exceeds the `min_difficulty` floor; while
either condition fails the worker keeps searching (also past the deadline),
and once elapsed time has reached the deadline and the floor is exceeded the
worker terminates within 100 further nonce increments. -/
theorem worker_soft_deadline (hashFn : Nat → Option (Nat × Nat))
    (cutoff_time min_difficulty i : Nat) (elapsed : Nat → Nat)
    (hmono : Monotone elapsed) (k : Nat) (s : WorkerState)
    (hn : s.nonce < U64MOD) (he : cutoff_time ≤ elapsed k)
    (hb : min_difficulty < s.best_difficulty) :
    (∀ e t, t.nonce % 100 ≠ 0 →
      workerStep hashFn cutoff_time min_difficulty i e t
        = StepResult.next (incNonce (hashUpd hashFn t)))
    ∧ (∀ e t r, workerStep hashFn cutoff_time min_difficulty i e t = StepResult.done r →
        t.nonce % 100 = 0 ∧ cutoff_time ≤ e
          ∧ min_difficulty < (hashUpd hashFn t).best_difficulty)
    ∧ (∀ e t, t.nonce % 100 = 0 → cutoff_time ≤ e →
        min_difficulty < (hashUpd hashFn t).best_difficulty →
        workerStep hashFn cutoff_time min_difficulty i e t
          = StepResult.done ((hashUpd hashFn t).best_nonce,
              (hashUpd hashFn t).best_difficulty, (hashUpd hashFn t).best_hash))
    ∧ (∀ e t, ¬ (cutoff_time ≤ e ∧ min_difficulty < (hashUpd hashFn t).best_difficulty) →
        ∃ u, workerStep hashFn cutoff_time min_difficulty i e t = StepResult.next u)
    ∧ (∃ j, j < 100
        ∧ ∃ r, workerRun hashFn cutoff_time min_difficulty i elapsed (j + 1) k s = some r) := by
  refine ⟨fun e t ht => workerStep_next_of_not100 hashFn cutoff_time min_difficulty i e t ht,
    fun e t r hr =>
      (workerStep_done_inv hashFn cutoff_time min_difficulty i e t r hr).imp
        id (fun hx => hx.imp id And.left),
    fun e t h0 h1 h2 => workerStep_done_of hashFn cutoff_time min_difficulty i e t h0 h1 h2,
    fun e t hcond => workerStep_next_of_cond hashFn cutoff_time min_difficulty i e t hcond,
    ?_⟩
  obtain ⟨j, hj, hcp, hmin⟩ := exists_checkpoint s.nonce hn
  exact ⟨j, hj, workerRun_exits hashFn cutoff_time min_difficulty i elapsed hmono
    j k s hn he hb hmin hcp⟩

theorem worker_soft_deadline_witness :
    (∀ e t, t.nonce % 100 ≠ 0 →
      workerStep (fun _ => none) 0 0 0 e t = StepResult.next (incNonce (hashUpd (fun _ => none) t)))
    ∧ (∀ e t r, workerStep (fun _ => none) 0 0 0 e t = StepResult.done r →
        t.nonce % 100 = 0 ∧ 0 ≤ e ∧ 0 < (hashUpd (fun _ => none) t).best_difficulty)
    ∧ (∀ e t, t.nonce % 100 = 0 → 0 ≤ e → 0 < (hashUpd (fun _ => none) t).best_difficulty →
        workerStep (fun _ => none) 0 0 0 e t
          = StepResult.done ((hashUpd (fun _ => none) t).best_nonce,
              (hashUpd (fun _ => none) t).best_difficulty, (hashUpd (fun _ => none) t).best_hash))
    ∧ (∀ e t, ¬ (0 ≤ e ∧ 0 < (hashUpd (fun _ => none) t).best_difficulty) →
        ∃ u, workerStep (fun _ => none) 0 0 0 e t = StepResult.next u)
    ∧ (∃ j, j < 100
        ∧ ∃ r, workerRun (fun _ => none) 0 0 0 (fun _ => 0) (j + 1) 0 ⟨0, 0, 1, 0, 0⟩ = some r) :=
  worker_soft_deadline (fun _ => none) 0 0 0 (fun _ => 0) monotone_const 0 ⟨0, 0, 1, 0, 0⟩
    (by simp only [U64MOD]; omega) (le_refl 0) Nat.one_pos

/-- C9: at a nonce where the hash function returns an error, the worker
leaves its best (nonce, difficulty, hash) triple unchanged and the loop step
either continues with the nonce incremented by one, or breaks solely because
the deadline condition (check-point nonce, elapsed ≥ cutoff, best above the
floor) holds — never because of the hash failure, and never with any other
outcome. -/
theorem worker_hash_failure_skip (hashFn : Nat → Option (Nat × Nat))
    (cutoff_time min_difficulty i e : Nat) (s : WorkerState)
    (hfail : hashFn s.nonce = none) :
    hashUpd hashFn s = s
    ∧ ((∃ t, workerStep hashFn cutoff_time min_difficulty i e s = StepResult.next t
        ∧ t.best_nonce = s.best_nonce ∧ t.best_difficulty = s.best_difficulty
        ∧ t.best_hash = s.best_hash ∧ t.nonce = (s.nonce + 1) % U64MOD)
      ∨ (workerStep hashFn cutoff_time min_difficulty i e s
            = StepResult.done (s.best_nonce, s.best_difficulty, s.best_hash)
          ∧ s.nonce % 100 = 0 ∧ cutoff_time ≤ e ∧ min_difficulty < s.best_difficulty)) := by
  have hupd : hashUpd hashFn s = s := by simp [hashUpd, hfail]
  refine ⟨hupd, ?_⟩
  by_cases h0 : s.nonce % 100 = 0
  · by_cases h1 : cutoff_time ≤ e
    · by_cases h2 : min_difficulty < s.best_difficulty
      · right
        have h2a : min_difficulty < (hashUpd hashFn s).best_difficulty := by
          rw [hupd]; exact h2
        have hd := workerStep_done_of hashFn cutoff_time min_difficulty i e s h0 h1 h2a
        rw [hupd] at hd
        exact ⟨hd, h0, h1, h2⟩
      · left
        have h2a : ¬ min_difficulty < (hashUpd hashFn s).best_difficulty := by
          rw [hupd]; exact h2
        refine ⟨incNonce s, ?_, rfl, rfl, rfl, rfl⟩
        simp only [workerStep, hupd, if_pos h0, if_pos h1, if_neg h2]
    · by_cases hi : i = 0
      · left
        refine ⟨incNonce (updProgress e s), ?_, ?_, ?_, ?_, ?_⟩
        · simp only [workerStep, if_pos h0, if_neg h1, if_pos hi, hupd]
        · rw [(incNonce_fields _).2.1, (updProgress_fields _ _).2.1]
        · rw [(incNonce_fields _).2.2.1, (updProgress_fields _ _).2.2.1]
        · rw [(incNonce_fields _).2.2.2, (updProgress_fields _ _).2.2.2]
        · rw [(incNonce_fields _).1, (updProgress_fields _ _).1]
      · left
        refine ⟨incNonce s, ?_, rfl, rfl, rfl, rfl⟩
        simp only [workerStep, if_pos h0, if_neg h1, if_neg hi, hupd]
  · left
    refine ⟨incNonce s, ?_, rfl, rfl, rfl, rfl⟩
    rw [workerStep_next_of_not100 hashFn cutoff_time min_difficulty i e s h0, hupd]

theorem worker_hash_failure_skip_witness :
    hashUpd (fun _ => none) (⟨1, 5, 7, 9, 0⟩ : WorkerState) = ⟨1, 5, 7, 9, 0⟩
    ∧ ((∃ t, workerStep (fun _ => none) 0 0 0 0 (⟨1, 5, 7, 9, 0⟩ : WorkerState)
          = StepResult.next t
        ∧ t.best_nonce = 5 ∧ t.best_difficulty = 7 ∧ t.best_hash = 9 ∧ t.nonce = 2)
      ∨ (workerStep (fun _ => none) 0 0 0 0 (⟨1, 5, 7, 9, 0⟩ : WorkerState)
            = StepResult.done (5, 7, 9)
          ∧ 1 % 100 = 0 ∧ (0 : Nat) ≤ 0 ∧ 0 < 7)) := by
  simpa [U64MOD] using
    worker_hash_failure_skip (fun _ => none) 0 0 0 0 (⟨1, 5, 7, 9, 0⟩ : WorkerState) rfl

theorem joinStep_keep (acc r : Nat × Nat × Nat) (h : r.2.1 ≤ acc.2.1) : joinStep acc r = acc := by
  rw [joinStep, if_neg (not_lt.mpr h)]

theorem joinStep_take (acc r : Nat × Nat × Nat) (h : acc.2.1 < r.2.1) : joinStep acc r = r := by
  rw [joinStep, if_pos h]

theorem joinFold_cases : ∀ (rs : List (Nat × Nat × Nat)) (acc : Nat × Nat × Nat),
    (List.foldl joinStep acc rs = acc ∧ ∀ r ∈ rs, r.2.1 ≤ acc.2.1)
    ∨ (∃ (k : Nat) (x : Nat × Nat × Nat), rs[k]? = some x
        ∧ List.foldl joinStep acc rs = x ∧ acc.2.1 < x.2.1
        ∧ (∀ (m : Nat) (y : Nat × Nat × Nat), m < k → rs[m]? = some y → y.2.1 < x.2.1)
        ∧ ∀ y ∈ rs, y.2.1 ≤ x.2.1) := by
  intro rs
  induction rs with
  | nil =>
    intro acc
    left
    exact ⟨rfl, by simp⟩
  | cons r rest ih =>
    intro acc
    by_cases hc : acc.2.1 < r.2.1
    · have hstep : List.foldl joinStep acc (r :: rest) = List.foldl joinStep r rest := by
        rw [List.foldl_cons, joinStep_take acc r hc]
      rcases ih r with ⟨hfold, hall⟩ | ⟨k, x, hk, hfold, hrx, hearlier, hbound⟩
      · right
        refine ⟨0, r, by simp, by rw [hstep, hfold], hc, by omega, ?_⟩
        intro y hy
        rcases List.mem_cons.mp hy with h | h
        · subst h; exact le_refl _
        · exact hall y h
      · right
        refine ⟨k + 1, x, by simpa using hk, by rw [hstep, hfold], lt_trans hc hrx, ?_, ?_⟩
        · intro m y hm hy
          match m with
          | 0 =>
            have hyr : r = y := by simpa using hy
            rw [← hyr]; exact hrx
          | m + 1 => exact hearlier m y (by omega) (by simpa using hy)
        · intro y hy
          rcases List.mem_cons.mp hy with h | h
          · subst h; exact le_of_lt hrx
          · exact hbound y h
    · have hkeep : List.foldl joinStep acc (r :: rest) = List.foldl joinStep acc rest := by
        rw [List.foldl_cons, joinStep_keep acc r (not_lt.mp hc)]
      rcases ih acc with ⟨hfold, hall⟩ | ⟨k, x, hk, hfold, hax, hearlier, hbound⟩
      · left
        refine ⟨by rw [hkeep, hfold], ?_⟩
        intro y hy
        rcases List.mem_cons.mp hy with h | h
        · subst h; exact not_lt.mp hc
        · exact hall y h
      · right
        refine ⟨k + 1, x, by simpa using hk, by rw [hkeep, hfold], hax, ?_, ?_⟩
        · intro m y hm hy
          match m with
          | 0 =>
            have hyr : r = y := by simpa using hy
            rw [← hyr]; exact lt_of_le_of_lt (not_lt.mp hc) hax
          | m + 1 => exact hearlier m y (by omega) (by simpa using hy)
        · intro y hy
          rcases List.mem_cons.mp hy with h | h
          · subst h; exact le_trans (not_lt.mp hc) (le_of_lt hax)
          · exact hbound y h

theorem workerStep_next_inv (hashFn : Nat → Option (Nat × Nat)) (c m i e : Nat)
    (s t : WorkerState) (h : workerStep hashFn c m i e s = StepResult.next t) :
    s.best_difficulty ≤ t.best_difficulty
    ∧ (t.best_difficulty = s.best_difficulty →
        t.best_nonce = s.best_nonce ∧ t.best_hash = s.best_hash) := by
  have hbase : s.best_difficulty ≤ (hashUpd hashFn s).best_difficulty :=
    hashUpd_best_mono hashFn s
  by_cases h0 : s.nonce % 100 = 0
  · by_cases h1 : c ≤ e
    · by_cases h2 : m < (hashUpd hashFn s).best_difficulty
      · rw [workerStep_done_of hashFn c m i e s h0 h1 h2] at h
        exact StepResult.noConfusion h
      · simp only [workerStep, if_pos h0, if_pos h1, if_neg h2] at h
        injection h with h
        subst h
        rw [(incNonce_fields _).2.2.1, (incNonce_fields _).2.1, (incNonce_fields _).2.2.2]
        exact ⟨hbase, fun he => hashUpd_best_eq hashFn s he⟩
    · by_cases hi : i = 0
      · simp only [workerStep, if_pos h0, if_neg h1, if_pos hi] at h
        injection h with h
        subst h
        rw [(incNonce_fields _).2.2.1, (incNonce_fields _).2.1, (incNonce_fields _).2.2.2,
          (updProgress_fields _ _).2.2.1, (updProgress_fields _ _).2.1,
          (updProgress_fields _ _).2.2.2]
        exact ⟨hbase, fun he => hashUpd_best_eq hashFn s he⟩
      · simp only [workerStep, if_pos h0, if_neg h1, if_neg hi] at h
        injection h with h
        subst h
        rw [(incNonce_fields _).2.2.1, (incNonce_fields _).2.1, (incNonce_fields _).2.2.2]
        exact ⟨hbase, fun he => hashUpd_best_eq hashFn s he⟩
  · rw [workerStep_next_of_not100 hashFn c m i e s h0] at h
    injection h with h
    subst h
    rw [(incNonce_fields _).2.2.1, (incNonce_fields _).2.1, (incNonce_fields _).2.2.2]
    exact ⟨hbase, fun he => hashUpd_best_eq hashFn s he⟩

theorem workerRun_best_provenance (hashFn : Nat → Option (Nat × Nat))
    (c m i : Nat) (elapsed : Nat → Nat) :
    ∀ fuel k (s : WorkerState) r,
      workerRun hashFn c m i elapsed fuel k s = some r →
      s.best_difficulty ≤ r.2.1
      ∧ (r.2.1 = s.best_difficulty → r = (s.best_nonce, s.best_difficulty, s.best_hash)) := by
  intro fuel
  induction fuel with
  | zero =>
    intro k s r h
    exact absurd h (by simp [workerRun])
  | succ fuel ih =>
    intro k s r h
    simp only [workerRun] at h
    cases hstep : workerStep hashFn c m i (elapsed k) s with
    | done r2 =>
      rw [hstep] at h
      injection h with h
      subst h
      have hd := workerStep_done_inv hashFn c m i (elapsed k) s r2 hstep
      constructor
      · rw [hd.2.2.2]
        exact hashUpd_best_mono hashFn s
      · intro heq
        have heq2 : (hashUpd hashFn s).best_difficulty = s.best_difficulty := by
          rw [hd.2.2.2] at heq
          exact heq
        obtain ⟨e1, e2⟩ := hashUpd_best_eq hashFn s heq2
        rw [hd.2.2.2, e1, e2, heq2]
    | next t =>
      rw [hstep] at h
      obtain ⟨hmono1, hfix⟩ := workerStep_next_inv hashFn c m i (elapsed k) s t hstep
      obtain ⟨hle, heqc⟩ := ih (k + 1) t r h
      refine ⟨le_trans hmono1 hle, ?_⟩
      intro heq
      have ht : t.best_difficulty = s.best_difficulty := le_antisymm (by omega) hmono1
      have hr := heqc (by omega)
      obtain ⟨e1, e2⟩ := hfix ht
      rw [hr, e1, ht, e2]

theorem startNonce_zero (T : Nat) : startNonce T 0 = 0 := by
  simp [startNonce, satMulU64, satDivU64]

/-- C1: the difficulty of the aggregated `find_hash_par` result bounds every
joined worker's local best difficulty from above and equals one of them (for
at least one worker); aggregation by strict greater-than comparison keeps
the current best on an equal-or-lower later result and replaces it only on a
strictly greater one, so the earliest worker reporting the maximum
difficulty wins ties: the aggregate equals the entry at some position `k`
all of whose predecessors have strictly smaller difficulty.  When the
maximum difficulty is `0` the aggregate is the initial `(0, 0, 0)`
accumulator, which coincides with worker `0`'s report: a worker-`0` run
that ends with best difficulty `0` returns exactly `(0, 0, 0)`. -/
theorem find_hash_par_aggregation (rs : List (Nat × Nat × Nat)) :
    (∀ r ∈ rs, r.2.1 ≤ (joinResults rs).2.1)
    ∧ (rs ≠ [] → ∃ r ∈ rs, (joinResults rs).2.1 = r.2.1)
    ∧ (∀ acc r, r.2.1 ≤ acc.2.1 → joinStep acc r = acc)
    ∧ (∀ acc r, acc.2.1 < r.2.1 → joinStep acc r = r)
    ∧ (0 < (joinResults rs).2.1 →
        ∃ (k : Nat) (x : Nat × Nat × Nat), rs[k]? = some x ∧ joinResults rs = x
          ∧ ∀ (m : Nat) (y : Nat × Nat × Nat), m < k → rs[m]? = some y → y.2.1 < x.2.1)
    ∧ ((joinResults rs).2.1 = 0 → joinResults rs = (0, 0, 0))
    ∧ (∀ hashFn cutoff_time min_difficulty elapsed fuel k T r,
        workerRun hashFn cutoff_time min_difficulty 0 elapsed fuel k (workerInit T 0) = some r →
        r.2.1 = 0 → r = (0, 0, 0)) := by
  have hcases := joinFold_cases rs (0, 0, 0)
  refine ⟨?_, ?_, joinStep_keep, joinStep_take, ?_, ?_, ?_⟩
  · intro r hr
    rcases hcases with ⟨hfold, hall⟩ | ⟨k, x, hk, hfold, hax, hearlier, hbound⟩
    · rw [joinResults, hfold]
      exact hall r hr
    · rw [joinResults, hfold]
      exact hbound r hr
  · intro hne
    rcases hcases with ⟨hfold, hall⟩ | ⟨k, x, hk, hfold, hax, hearlier, hbound⟩
    · rcases rs with _ | ⟨r, rest⟩
      · exact absurd rfl hne
      · refine ⟨r, List.mem_cons_self r rest, ?_⟩
        rw [joinResults, hfold]
        have hr := hall r (List.mem_cons_self r rest)
        have h0 : ((0, 0, 0) : Nat × Nat × Nat).2.1 = 0 := rfl
        omega
    · refine ⟨x, ?_, by rw [joinResults, hfold]⟩
      exact List.getElem?_mem hk
  · intro hpos
    rcases hcases with ⟨hfold, hall⟩ | ⟨k, x, hk, hfold, hax, hearlier, hbound⟩
    · rw [joinResults, hfold] at hpos
      exact absurd hpos (by decide)
    · exact ⟨k, x, hk, by rw [joinResults, hfold], hearlier⟩
  · intro hzero
    rcases hcases with ⟨hfold, hall⟩ | ⟨k, x, hk, hfold, hax, hearlier, hbound⟩
    · rw [joinResults, hfold]
    · exfalso
      have h0 : ((0, 0, 0) : Nat × Nat × Nat).2.1 = 0 := rfl
      rw [joinResults, hfold] at hzero
      omega
  · intro hashFn cutoff_time min_difficulty elapsed fuel k T r hrun hzero
    have hw := workerRun_best_provenance hashFn cutoff_time min_difficulty 0 elapsed
      fuel k (workerInit T 0) r hrun
    have h0 : (workerInit T 0).best_difficulty = 0 := rfl
    have hres := hw.2 (by rw [hzero, h0])
    rw [hres]
    simp [workerInit, startNonce_zero]

theorem find_hash_par_aggregation_witness :
    (((5, 3, 7) : Nat × Nat × Nat).2.1 ≤ (joinResults [(5, 3, 7), (9, 3, 8)]).2.1)
    ∧ (∃ r ∈ [((5, 3, 7) : Nat × Nat × Nat), (9, 3, 8)],
        (joinResults [(5, 3, 7), (9, 3, 8)]).2.1 = r.2.1)
    ∧ (∃ (k : Nat) (x : Nat × Nat × Nat), [((5, 3, 7) : Nat × Nat × Nat), (9, 3, 8)][k]? = some x
        ∧ joinResults [(5, 3, 7), (9, 3, 8)] = x
        ∧ ∀ (m : Nat) (y : Nat × Nat × Nat),
            m < k → [((5, 3, 7) : Nat × Nat × Nat), (9, 3, 8)][m]? = some y →
            y.2.1 < x.2.1) := by
  have h := find_hash_par_aggregation [(5, 3, 7), (9, 3, 8)]
  exact ⟨h.1 (5, 3, 7) (by simp), h.2.1 (by simp), h.2.2.2.2.1 (by decide)⟩

theorem clamp_neg_eq_max (a : ℚ) : (if a < 0 then (0 : ℚ) else a) = max 0 a := by
  rcases lt_or_le a 0 with h | h
  · rw [if_pos h, max_eq_left h.le]
  · rw [if_neg (not_lt.mpr h), max_eq_right h]

theorem clamp_pos_neg_eq_max (a : ℚ) : -(if 0 < a then (0 : ℚ) else a) = max 0 (-a) := by
  rcases lt_or_le 0 a with h | h
  · rw [if_pos h, max_eq_left (neg_nonpos.mpr h.le)]
    exact neg_zero
  · rw [if_neg (not_lt.mpr h), max_eq_right (neg_nonneg.mpr h)]

/-- C4: on every pass with `pass > 1` the controller adds
`max(0, curr_staked - prev_staked)` to the session mined total and
`max(0, prev_wallet - curr_wallet)` to the session spent total (so unstaking
contributes `0` to the mined total and a deposit contributes `0` to the
spent total), and on the first pass (`pass = 1`) both session totals are
left unchanged. -/
theorem mine_balance_deltas (env : Nat → ℚ × ℚ) (s : PassState) :
    (1 < s.pass →
      (mineBody env s).1.session_ore_mined
          = s.session_ore_mined + max 0 ((env s.pass).2 - s.last_staked_balance)
        ∧ (mineBody env s).1.session_sol_used
          = s.session_sol_used + max 0 (s.last_sol_balance - (env s.pass).1))
    ∧ (s.pass = 1 →
      (mineBody env s).1.session_ore_mined = s.session_ore_mined
        ∧ (mineBody env s).1.session_sol_used = s.session_sol_used) := by
  constructor
  · intro hp
    constructor
    · simp only [mineBody, if_pos hp]
      rw [clamp_neg_eq_max]
    · simp only [mineBody, if_pos hp]
      rw [sub_eq_add_neg, clamp_pos_neg_eq_max, neg_sub]
  · intro hp
    have hp1 : ¬ 1 < s.pass := by omega
    constructor <;> simp only [mineBody, if_neg hp1]

theorem mine_balance_deltas_witness :
    ((mineBody (fun _ => ((3 : ℚ)/2, 7)) (⟨2, 2, 5, 10, 20⟩ : PassState)).1.session_ore_mined
        = 10 + max 0 (7 - 5)
      ∧ (mineBody (fun _ => ((3 : ℚ)/2, 7)) (⟨2, 2, 5, 10, 20⟩ : PassState)).1.session_sol_used
        = 20 + max 0 (2 - 3/2))
    ∧ ((mineBody (fun _ => ((3 : ℚ)/2, 7)) initPassState).1.session_ore_mined = 0
      ∧ (mineBody (fun _ => ((3 : ℚ)/2, 7)) initPassState).1.session_sol_used = 0) := by
  constructor
  · have h := (mine_balance_deltas (fun _ => ((3 : ℚ)/2, 7)) ⟨2, 2, 5, 10, 20⟩).1 (by norm_num)
    simpa using h
  · have h := (mine_balance_deltas (fun _ => ((3 : ℚ)/2, 7)) initPassState).2 rfl
    simpa [initPassState] using h

theorem mineBody_ore_mono (env : Nat → ℚ × ℚ) (s : PassState) :
    s.session_ore_mined ≤ (mineBody env s).1.session_ore_mined := by
  by_cases hp : 1 < s.pass
  · simp only [mineBody, if_pos hp]
    have h0 : (0 : ℚ) ≤ if (env s.pass).2 - s.last_staked_balance < 0 then 0
        else (env s.pass).2 - s.last_staked_balance := by
      split
      · exact le_refl 0
      · next h => exact not_lt.mp h
    linarith
  · simp only [mineBody, if_neg hp]
    exact le_refl _

/-- C7: the session mined total is monotonically non-decreasing across the
entire sequence of passes: after `m ≤ n` passes the accumulated
`session_ore_mined` after pass `m` never exceeds the one after pass `n`,
because every per-pass delta is clamped to be nonnegative before
accumulation. -/
theorem session_mined_monotone (env : Nat → ℚ × ℚ) (m n : Nat) (h : m ≤ n) :
    (mineRun env m).1.session_ore_mined ≤ (mineRun env n).1.session_ore_mined := by
  induction n with
  | zero =>
    have hm : m = 0 := by omega
    subst hm
    exact le_refl _
  | succ n ih =>
    rcases Nat.lt_or_ge m (n + 1) with hlt | hge
    · refine le_trans (ih (by omega)) ?_
      show (mineRun env n).1.session_ore_mined ≤ (mineRun env (n + 1)).1.session_ore_mined
      simp only [mineRun]
      exact mineBody_ore_mono env (mineRun env n).1
    · have hm : m = n + 1 := by omega
      subst hm
      exact le_refl _

theorem session_mined_monotone_witness :
    (mineRun (fun _ => ((1 : ℚ), 0)) 0).1.session_ore_mined
      ≤ (mineRun (fun _ => ((1 : ℚ), 0)) 2).1.session_ore_mined :=
  session_mined_monotone (fun _ => ((1 : ℚ), 0)) 0 2 (by norm_num)

theorem mineBody_pass (env : Nat → ℚ × ℚ) (t : PassState) :
    (mineBody env t).1.pass = t.pass + 1 := by
  by_cases hp : 1 < t.pass <;> simp [mineBody, hp]

theorem mineRun_pass (env : Nat → ℚ × ℚ) : ∀ n, (mineRun env n).1.pass = n + 1 := by
  intro n
  induction n with
  | zero => rfl
  | succ n ih =>
    simp only [mineRun]
    rw [mineBody_pass, ih]

theorem mineBody_head (env : Nat → ℚ × ℚ) (t : PassState) :
    (mineBody env t).2.head? = some (MineEvent.fetchState t.pass) := by
  by_cases hp : 1 < t.pass <;>
    by_cases hl : (env t.pass).1 < MIN_SOL_BALANCE <;>
    simp [mineBody, hp, hl]

/-- C8: whenever the wallet balance fetched for a pass is below
`MIN_SOL_BALANCE`, the pass takes the wait-for-funds branch: its trace is
the fetch, the (pass > 1) summarize, the balance evaluation, and then
exactly 60 wait ticks of 1000 ms each; the only balance read of the pass is
its initial fetch (no re-check during the wait), and re-evaluation happens
only at the next pass, whose trace starts with a fresh fetch. -/
theorem mine_wait_for_funds (env : Nat → ℚ × ℚ) (s : PassState)
    (hlow : (env s.pass).1 < MIN_SOL_BALANCE) :
    (mineBody env s).2
      = [MineEvent.fetchState s.pass]
        ++ (if 1 < s.pass then [MineEvent.summarize s.pass] else [])
        ++ [MineEvent.evalBalance s.pass]
        ++ List.replicate 60 (MineEvent.waitTick s.pass 1000)
    ∧ ((mineBody env s).2.filter isWaitTickEv).length = 60
    ∧ (mineBody env s).2.filter isFetchStateEv = [MineEvent.fetchState s.pass]
    ∧ (mineBody env (mineBody env s).1).2.head? = some (MineEvent.fetchState (s.pass + 1)) := by
  have htrace : (mineBody env s).2
      = [MineEvent.fetchState s.pass]
        ++ (if 1 < s.pass then [MineEvent.summarize s.pass] else [])
        ++ [MineEvent.evalBalance s.pass]
        ++ List.replicate 60 (MineEvent.waitTick s.pass 1000) := by
    by_cases hp : 1 < s.pass <;> simp [mineBody, hp, hlow]
  refine ⟨htrace, ?_, ?_, ?_⟩
  · rw [htrace]
    by_cases hp : 1 < s.pass <;>
      simp [hp, List.filter_append, List.filter_replicate, isWaitTickEv, isSummarizeEv]
  · rw [htrace]
    by_cases hp : 1 < s.pass <;>
      simp [hp, List.filter_append, List.filter_replicate, isFetchStateEv]
  · rw [mineBody_head, mineBody_pass]

theorem mine_wait_for_funds_witness :
    (mineBody (fun _ => ((1 : ℚ)/500, 0)) initPassState).2
      = [MineEvent.fetchState 1] ++ [] ++ [MineEvent.evalBalance 1]
        ++ List.replicate 60 (MineEvent.waitTick 1 1000)
    ∧ ((mineBody (fun _ => ((1 : ℚ)/500, 0)) initPassState).2.filter isWaitTickEv).length = 60
    ∧ (mineBody (fun _ => ((1 : ℚ)/500, 0)) initPassState).2.filter isFetchStateEv
        = [MineEvent.fetchState 1]
    ∧ (mineBody (fun _ => ((1 : ℚ)/500, 0))
          (mineBody (fun _ => ((1 : ℚ)/500, 0)) initPassState).1).2.head?
        = some (MineEvent.fetchState 2) := by
  have h := mine_wait_for_funds (fun _ => ((1 : ℚ)/500, 0)) initPassState
    (by norm_num [initPassState, MIN_SOL_BALANCE])
  simpa [initPassState] using h

/-- C5 counterexample: in a two-pass run (all balances sufficient), the trace
contains a summarize event, yet no summarize event occurs before pass 2's
`fetchState`.  This refutes the claimed order "… → {WaitForFunds |
SearchAndSubmit} → Summarize → next pass's FetchState": the accounting and
summary for pass 1's results are performed inside pass 2's body, after
pass 2's fetch, not between pass 1's branch and pass 2's fetch. -/
theorem mine_summarize_order_cex :
    (mineRun (fun _ => ((1 : ℚ), 0)) 2).2
      = [MineEvent.fetchState 1, MineEvent.evalBalance 1, MineEvent.searchAndSubmit 1,
         MineEvent.fetchState 2, MineEvent.summarize 2, MineEvent.evalBalance 2,
         MineEvent.searchAndSubmit 2]
    ∧ ((mineRun (fun _ => ((1 : ℚ), 0)) 2).2.takeWhile
        (fun e => !(e == MineEvent.fetchState 2))).filter isSummarizeEv = []
    ∧ (mineRun (fun _ => ((1 : ℚ), 0)) 2).2.filter isSummarizeEv ≠ [] := by
  have htr : (mineRun (fun _ => ((1 : ℚ), 0)) 2).2
      = [MineEvent.fetchState 1, MineEvent.evalBalance 1, MineEvent.searchAndSubmit 1,
         MineEvent.fetchState 2, MineEvent.summarize 2, MineEvent.evalBalance 2,
         MineEvent.searchAndSubmit 2] := by
    norm_num [mineRun, mineBody, initPassState, MIN_SOL_BALANCE]
  refine ⟨htr, ?_, ?_⟩
  · rw [htr]; rfl
  · rw [htr]; decide

theorem mineBody_trace_after_first (env : Nat → ℚ × ℚ) (t : PassState) (hp : 1 < t.pass) :
    (mineBody env t).2
      = [MineEvent.fetchState t.pass, MineEvent.summarize t.pass, MineEvent.evalBalance t.pass]
        ++ (if (env t.pass).1 < MIN_SOL_BALANCE
            then List.replicate 60 (MineEvent.waitTick t.pass 1000)
            else [MineEvent.searchAndSubmit t.pass]) := by
  by_cases hl : (env t.pass).1 < MIN_SOL_BALANCE <;> simp [mineBody, hp, hl]

/-- C5 amended: the order the code actually realises.  Within every pass
after the first, the body's steps are FetchState, then Summarize (of the
previous pass's results), then EvaluateBalance, then the wait-or-search
branch; consequently in any run the contiguous block
`[fetchState p, summarize p, evalBalance p]` appears for each pass
`2 ≤ p ≤ n`.  The summarize for a pass's results thus happens after the
NEXT pass's fetch and before that next pass's branch — not between the
pass's own branch and the next fetch. -/
theorem mine_pass_order (env : Nat → ℚ × ℚ) (n p : Nat) (hp2 : 2 ≤ p) (hpn : p ≤ n) :
    (∃ l1 l2, (mineRun env n).2
      = l1 ++ [MineEvent.fetchState p, MineEvent.summarize p, MineEvent.evalBalance p] ++ l2)
    ∧ ∀ t : PassState, 1 < t.pass →
      (mineBody env t).2
        = [MineEvent.fetchState t.pass, MineEvent.summarize t.pass,
            MineEvent.evalBalance t.pass]
          ++ (if (env t.pass).1 < MIN_SOL_BALANCE
              then List.replicate 60 (MineEvent.waitTick t.pass 1000)
              else [MineEvent.searchAndSubmit t.pass]) := by
  refine ⟨?_, fun t ht => mineBody_trace_after_first env t ht⟩
  revert hpn
  induction n with
  | zero => intro hpn; omega
  | succ n ih =>
    intro hpn
    by_cases hcase : p ≤ n
    · obtain ⟨l1, l2, hl⟩ := ih hcase
      refine ⟨l1, l2 ++ (mineBody env (mineRun env n).1).2, ?_⟩
      simp only [mineRun]
      rw [hl]
      simp [List.append_assoc]
    · have hpe : p = n + 1 := by omega
      subst hpe
      have hpass : (mineRun env n).1.pass = n + 1 := mineRun_pass env n
      refine ⟨(mineRun env n).2,
        (if (env (n + 1)).1 < MIN_SOL_BALANCE
          then List.replicate 60 (MineEvent.waitTick (n + 1) 1000)
          else [MineEvent.searchAndSubmit (n + 1)]), ?_⟩
      simp only [mineRun]
      rw [mineBody_trace_after_first env (mineRun env n).1 (by rw [hpass]; omega), hpass]
      simp [List.append_assoc]

theorem mine_pass_order_witness :
    (∃ l1 l2, (mineRun (fun _ => ((1 : ℚ), 0)) 3).2
      = l1 ++ [MineEvent.fetchState 2, MineEvent.summarize 2, MineEvent.evalBalance 2] ++ l2)
    ∧ ∀ t : PassState, 1 < t.pass →
      (mineBody (fun _ => ((1 : ℚ), 0)) t).2
        = [MineEvent.fetchState t.pass, MineEvent.summarize t.pass,
            MineEvent.evalBalance t.pass]
          ++ (if ((fun _ => ((1 : ℚ), 0)) t.pass).1 < MIN_SOL_BALANCE
              then List.replicate 60 (MineEvent.waitTick t.pass 1000)
              else [MineEvent.searchAndSubmit t.pass]) :=
  mine_pass_order (fun _ => ((1 : ℚ), 0)) 3 2 (by norm_num) (by norm_num)
